import Mathlib

/-!
Verification development for the Black-Scholes pricing terminal
(src/BlackScholes.py).  The numeric core (functions d1_d2, bs_price,
greeks, implied_vol and the module-level input validation) is embedded
over the real numbers.  The external numerical collaborators
(scipy.stats.norm and scipy.optimize.brentq) are modelled by their exact
real-arithmetic semantics: the standard normal pdf and cdf, and an
idealized bracketed root finder that succeeds exactly when a root exists
in the bracket.
-/

open MeasureTheory Set

namespace BS

/-- Standard normal probability density function.  Model of the external
dependency scipy.stats.norm.pdf used at src/BlackScholes.py line 62. -/
noncomputable def normPdf (x : ℝ) : ℝ :=
  (Real.sqrt (2 * Real.pi))⁻¹ * Real.exp (-(x ^ 2) / 2)

/-- Standard normal cumulative distribution function.  Model of the external
dependency scipy.stats.norm.cdf used throughout src/BlackScholes.py. -/
noncomputable def normCdf (x : ℝ) : ℝ := ∫ t in Iic x, normPdf t

lemma normPdf_pos (x : ℝ) : 0 < normPdf x := by
  have h2π : (0 : ℝ) < 2 * Real.pi := by positivity
  exact mul_pos (inv_pos.mpr (Real.sqrt_pos.mpr h2π)) (Real.exp_pos _)

lemma normPdf_neg (x : ℝ) : normPdf (-x) = normPdf x := by
  simp [normPdf, neg_sq]

lemma continuous_normPdf : Continuous normPdf := by
  unfold normPdf
  exact continuous_const.mul (Real.continuous_exp.comp
    ((continuous_pow 2).neg.div_const 2))

lemma integrable_normPdf : Integrable normPdf := by
  have h : Integrable (fun x : ℝ => Real.exp (-(1/2 : ℝ) * x ^ 2)) :=
    integrable_exp_neg_mul_sq (by norm_num)
  have h2 := h.const_mul (Real.sqrt (2 * Real.pi))⁻¹
  refine h2.congr ?_
  filter_upwards with x
  unfold normPdf
  ring_nf

lemma integral_normPdf : (∫ x, normPdf x) = 1 := by
  have hg : (∫ x : ℝ, Real.exp (-(1/2 : ℝ) * x ^ 2)) = Real.sqrt (Real.pi / (1/2)) :=
    integral_gaussian (1/2)
  have hrw : (∫ x, normPdf x)
      = (Real.sqrt (2 * Real.pi))⁻¹ * ∫ x : ℝ, Real.exp (-(1/2 : ℝ) * x ^ 2) := by
    rw [← integral_mul_left]
    congr 1
    funext x
    unfold normPdf
    ring_nf
  have hπ : Real.pi / (1/2) = 2 * Real.pi := by ring
  rw [hrw, hg, hπ]
  have hpos : (0 : ℝ) < Real.sqrt (2 * Real.pi) := Real.sqrt_pos.mpr (by positivity)
  field_simp

lemma normCdf_nonneg (x : ℝ) : 0 ≤ normCdf x :=
  setIntegral_nonneg measurableSet_Iic fun t _ => (normPdf_pos t).le

lemma normCdf_le_one (x : ℝ) : normCdf x ≤ 1 := by
  rw [← integral_normPdf]
  exact setIntegral_le_integral integrable_normPdf
    (Filter.Eventually.of_forall fun t => (normPdf_pos t).le)

/-- The reflection identity for the standard normal cdf. -/
lemma normCdf_add_normCdf_neg (x : ℝ) : normCdf x + normCdf (-x) = 1 := by
  have h1 : normCdf (-x) = ∫ t in Ioi x, normPdf t := by
    unfold normCdf
    have : (∫ t in Iic (-x), normPdf t) = ∫ t in Iic (-x), normPdf (-t) := by
      refine setIntegral_congr_fun measurableSet_Iic fun t _ => ?_
      rw [normPdf_neg]
    rw [this, integral_comp_neg_Iic, neg_neg]
  rw [h1]
  unfold normCdf
  rw [← integral_normPdf]
  exact intervalIntegral.integral_Iic_add_Ioi integrable_normPdf.integrableOn
    integrable_normPdf.integrableOn

/-- Fundamental theorem of calculus for the normal cdf. -/
lemma hasDerivAt_normCdf (x : ℝ) : HasDerivAt normCdf (normPdf x) x := by
  have key : ∀ y : ℝ, normCdf y = normCdf 0 + ∫ t in (0:ℝ)..y, normPdf t := by
    intro y
    have := intervalIntegral.integral_Iic_sub_Iic (f := normPdf) (μ := volume)
      (a := (0:ℝ)) (b := y) integrable_normPdf.integrableOn
      integrable_normPdf.integrableOn
    unfold normCdf
    linarith [this]
  have H : HasDerivAt (fun u => ∫ t in (0:ℝ)..u, normPdf t) (normPdf x) x :=
    intervalIntegral.integral_hasDerivAt_right
      integrable_normPdf.intervalIntegrable
      continuous_normPdf.stronglyMeasurable.stronglyMeasurableAtFilter
      continuous_normPdf.continuousAt
  have hfun : (fun y => normCdf 0 + ∫ t in (0:ℝ)..y, normPdf t) = normCdf := by
    funext y
    exact (key y).symm
  rw [← hfun]
  exact H.const_add (normCdf 0)

/-- The core comparison behind the no-arbitrage price bounds: for h ≥ 0,
Φ(a - h) ≤ exp(2ah) Φ(a + h). -/
lemma normCdf_sub_le (a h : ℝ) (hh : 0 ≤ h) :
    normCdf (a - h) ≤ Real.exp (2 * a * h) * normCdf (a + h) := by
  have hfun : (fun u : ℝ => (Iic (a - h)).indicator normPdf (u + -(2 * h)))
      = fun u : ℝ => (Iic (a + h)).indicator (fun v => normPdf (v - 2 * h)) u := by
    funext u
    simp only [Set.indicator_apply, mem_Iic]
    by_cases hu : u ≤ a + h
    · rw [if_pos hu, if_pos (by linarith : u + -(2 * h) ≤ a - h)]
      rw [sub_eq_add_neg]
    · rw [if_neg hu, if_neg (by intro hc; exact hu (by linarith))]
  have hshift : normCdf (a - h) = ∫ u in Iic (a + h), normPdf (u - 2 * h) := by
    unfold normCdf
    rw [← integral_indicator measurableSet_Iic, ← integral_indicator measurableSet_Iic]
    have htr := MeasureTheory.integral_add_right_eq_self
      (μ := (volume : Measure ℝ))
      (fun t => (Iic (a - h)).indicator normPdf t) (-(2 * h))
    rw [← htr, hfun]
  have hmono : (∫ u in Iic (a + h), normPdf (u - 2 * h))
      ≤ ∫ u in Iic (a + h), Real.exp (2 * a * h) * normPdf u := by
    refine setIntegral_mono_on ?_ ?_ measurableSet_Iic ?_
    · exact (integrable_normPdf.comp_sub_right (2 * h)).integrableOn
    · exact (integrable_normPdf.const_mul _).integrableOn
    · intro u hu
      rw [mem_Iic] at hu
      unfold normPdf
      rw [mul_comm (Real.exp (2 * a * h)), mul_assoc, ← Real.exp_add]
      refine mul_le_mul_of_nonneg_left ?_ (by positivity)
      refine Real.exp_le_exp.mpr ?_
      nlinarith [sq_nonneg (u - h)]
  calc normCdf (a - h) = ∫ u in Iic (a + h), normPdf (u - 2 * h) := hshift
    _ ≤ ∫ u in Iic (a + h), Real.exp (2 * a * h) * normPdf u := hmono
    _ = Real.exp (2 * a * h) * normCdf (a + h) := by
        unfold normCdf; rw [← integral_mul_left]

/-- Option-type test of bs_price (src/BlackScholes.py line 54):
the Python expression opt_type.lower().startswith("c"), over the list of
characters of the string. -/
def isCallType (opt_type : List Char) : Bool :=
  match opt_type.map Char.toLower with
  | 'c' :: _ => true
  | _ => false

/-- Option-type test of implied_vol (src/BlackScholes.py line 81):
the Python expression opt_type[0].lower() == "c".  On the empty string the
Python code raises IndexError; the claims only concern non-empty strings,
and the [] branch below (put) is never compared against Python there. -/
def firstCharIsC (opt_type : List Char) : Bool :=
  match opt_type with
  | c :: _ => c.toLower == 'c'
  | [] => false

/-- src/BlackScholes.py lines 45-49. -/
noncomputable def d1_d2 (S K T r q vol : ℝ) : ℝ × ℝ × ℝ :=
  let sqrtT := Real.sqrt T
  let d1 := (Real.log (S / K) + (r - q + 0.5 * vol * vol) * T) / (vol * sqrtT)
  let d2 := d1 - vol * sqrtT
  (d1, d2, sqrtT)

/-- src/BlackScholes.py lines 51-57. -/
noncomputable def bs_price (S K T r q vol : ℝ) (opt_type : List Char) : ℝ :=
  let d1 := (d1_d2 S K T r q vol).1
  let d2 := (d1_d2 S K T r q vol).2.1
  let disc_r := Real.exp (-r * T)
  let disc_q := Real.exp (-q * T)
  if isCallType opt_type then
    S * disc_q * normCdf d1 - K * disc_r * normCdf d2
  else
    K * disc_r * normCdf (-d2) - S * disc_q * normCdf (-d1)

/-- The call branch of bs_price (src/BlackScholes.py line 55). -/
noncomputable def callPrice (S K T r q vol : ℝ) : ℝ :=
  S * Real.exp (-q * T) * normCdf ((d1_d2 S K T r q vol).1) -
    K * Real.exp (-r * T) * normCdf ((d1_d2 S K T r q vol).2.1)

/-- The put branch of bs_price (src/BlackScholes.py line 57). -/
noncomputable def putPrice (S K T r q vol : ℝ) : ℝ :=
  K * Real.exp (-r * T) * normCdf (-(d1_d2 S K T r q vol).2.1) -
    S * Real.exp (-q * T) * normCdf (-(d1_d2 S K T r q vol).1)

lemma bs_price_eq (S K T r q vol : ℝ) (opt_type : List Char) :
    bs_price S K T r q vol opt_type =
      if isCallType opt_type then callPrice S K T r q vol
      else putPrice S K T r q vol := by
  unfold bs_price callPrice putPrice
  by_cases hc : isCallType opt_type <;> simp [hc]

/-- The tuple returned by greeks (src/BlackScholes.py lines 76-77). -/
structure GreeksOut where
  call : ℝ
  put : ℝ
  d1 : ℝ
  d2 : ℝ
  delta_c : ℝ
  delta_p : ℝ
  gamma : ℝ
  vega : ℝ
  theta_c : ℝ
  theta_p : ℝ
  rho_c : ℝ
  rho_p : ℝ

/-- src/BlackScholes.py lines 59-77. -/
noncomputable def greeks (S K T r q vol : ℝ) : GreeksOut :=
  let d1 := (d1_d2 S K T r q vol).1
  let d2 := (d1_d2 S K T r q vol).2.1
  let sqrtT := (d1_d2 S K T r q vol).2.2
  let disc_r := Real.exp (-r * T)
  let disc_q := Real.exp (-q * T)
  let pdf := normPdf d1
  { call := S * disc_q * normCdf d1 - K * disc_r * normCdf d2
    put := K * disc_r * normCdf (-d2) - S * disc_q * normCdf (-d1)
    d1 := d1
    d2 := d2
    delta_c := disc_q * normCdf d1
    delta_p := disc_q * (normCdf d1 - 1.0)
    gamma := disc_q * pdf / (S * vol * sqrtT)
    vega := S * disc_q * pdf * sqrtT
    theta_c := -(S * disc_q * pdf * vol) / (2 * sqrtT) - r * K * disc_r * normCdf d2 +
      q * S * disc_q * normCdf d1
    theta_p := -(S * disc_q * pdf * vol) / (2 * sqrtT) + r * K * disc_r * normCdf (-d2) -
      q * S * disc_q * normCdf (-d1)
    rho_c := K * T * disc_r * normCdf d2
    rho_p := -(K * T * disc_r * normCdf (-d2)) }

/-- The gamma the program reports for a requested option type: the greeks
tuple carries a single gamma, used for both the call and the put column
(src/BlackScholes.py lines 69 and 140). -/
noncomputable def gammaOf (S K T r q vol : ℝ) (_opt_type : List Char) : ℝ :=
  (greeks S K T r q vol).gamma

/-- The vega the program reports for a requested option type: the greeks
tuple carries a single vega (src/BlackScholes.py lines 70 and 141). -/
noncomputable def vegaOf (S K T r q vol : ℝ) (_opt_type : List Char) : ℝ :=
  (greeks S K T r q vol).vega

/-- The delta the program reports for a requested option type
(src/BlackScholes.py lines 67-68 and 139). -/
noncomputable def deltaOf (S K T r q vol : ℝ) (opt_type : List Char) : ℝ :=
  if isCallType opt_type then (greeks S K T r q vol).delta_c
  else (greeks S K T r q vol).delta_p

open Classical in
/-- Modelled from the spec: idealized real-arithmetic semantics of the
external dependency scipy.optimize.brentq (src/BlackScholes.py line 86).
Spec section 4.2 describes it as a bracketed root finder that returns a
root in the bracket when one exists and otherwise fails (the exception
caught at line 87).  In exact real arithmetic, on the continuous monotone
objectives it is applied to, the Brent method converges to a root precisely
when the bracket contains one. -/
noncomputable def brentq (f : ℝ → ℝ) (a b : ℝ) : Option ℝ :=
  if hroot : ∃ x ∈ Icc a b, f x = 0 then some hroot.choose else none

lemma brentq_eq_some {f : ℝ → ℝ} {a b v : ℝ} (hv : brentq f a b = some v) :
    v ∈ Icc a b ∧ f v = 0 := by
  unfold brentq at hv
  by_cases hroot : ∃ x ∈ Icc a b, f x = 0
  · rw [dif_pos hroot] at hv
    obtain ⟨hmem, hzero⟩ := hroot.choose_spec
    cases hv
    exact ⟨hmem, hzero⟩
  · rw [dif_neg hroot] at hv
    cases hv

lemma brentq_of_root {f : ℝ → ℝ} {a b : ℝ} (hroot : ∃ x ∈ Icc a b, f x = 0) :
    ∃ v, brentq f a b = some v ∧ v ∈ Icc a b ∧ f v = 0 := by
  refine ⟨hroot.choose, ?_, hroot.choose_spec⟩
  unfold brentq
  rw [dif_pos hroot]

lemma brentq_of_no_root {f : ℝ → ℝ} {a b : ℝ} (h : ∀ x ∈ Icc a b, f x ≠ 0) :
    brentq f a b = none := by
  unfold brentq
  rw [dif_neg]
  rintro ⟨x, hx, hfx⟩
  exact h x hx hfx

/-- src/BlackScholes.py lines 79-88, parameterized by the root-finding
routine so that the early below-intrinsic return can be stated as holding
for every solver.  A NaN return of the Python function is modelled as
none, a numeric return as some. -/
noncomputable def implied_vol (solver : (ℝ → ℝ) → ℝ → ℝ → Option ℝ)
    (price_mkt S K T r q : ℝ) (opt_type : List Char) : Option ℝ :=
  let disc_r := Real.exp (-r * T)
  let disc_q := Real.exp (-q * T)
  let intrinsic := if firstCharIsC opt_type then max 0 (S * disc_q - K * disc_r)
    else max 0 (K * disc_r - S * disc_q)
  if price_mkt < intrinsic then none
  else solver (fun sig => bs_price S K T r q sig opt_type - price_mkt) 1e-6 5

/-- src/BlackScholes.py lines 110-118: the module-level input validation
and the call into the pricing engine, parameterized by the engine so that
rejection before any pricing computation is expressible.  The error exit
at line 112 is modelled as Except.error with the printed message. -/
noncomputable def runPricing {G : Type} (engine : ℝ → ℝ → ℝ → ℝ → ℝ → ℝ → G)
    (S K T_days r vol q : ℝ) : Except String G :=
  if S ≤ 0 ∨ K ≤ 0 ∨ T_days ≤ 0 ∨ vol ≤ 0 then
    Except.error "Inputs must be positive; T_days and sigma > 0."
  else
    Except.ok (engine S K (T_days / 365) r q vol)

/-- A call option-type string, as the main program passes at line 147. -/
def callType : List Char := ['c', 'a', 'l', 'l']

/-- A put option-type string, as the main program passes at line 148. -/
def putType : List Char := ['p', 'u', 't']

lemma isCallType_callType : isCallType callType = true := by decide

lemma isCallType_putType : isCallType putType = false := by decide

lemma firstCharIsC_eq_isCallType (opt_type : List Char) :
    firstCharIsC opt_type = isCallType opt_type := by
  cases opt_type with
  | nil => rfl
  | cons c rest =>
      unfold firstCharIsC isCallType
      simp only [List.map_cons]
      by_cases hc : c.toLower = 'c'
      · rw [hc]
        simp
      · rcases hlt : c.toLower :: rest.map Char.toLower with _ | ⟨d, l⟩
        · cases hlt
        · cases hlt
          simp [hc]

/-- The drift part of the moneyness terms: d1 = aPar + hPar, d2 = aPar - hPar. -/
noncomputable def aPar (S K T r q vol : ℝ) : ℝ :=
  (Real.log (S / K) + (r - q) * T) / (vol * Real.sqrt T)

/-- Half the total volatility: hPar = vol * sqrt T / 2. -/
noncomputable def hPar (T vol : ℝ) : ℝ := vol * Real.sqrt T / 2

lemma hPar_pos {T vol : ℝ} (hT : 0 < T) (hvol : 0 < vol) : 0 < hPar T vol := by
  unfold hPar
  have := Real.sqrt_pos.mpr hT
  positivity

lemma d1_decomp (S K T r q vol : ℝ) (hT : 0 < T) (hvol : vol ≠ 0) :
    (d1_d2 S K T r q vol).1 = aPar S K T r q vol + hPar T vol := by
  unfold d1_d2 aPar hPar
  simp only
  have hs0 : Real.sqrt T ≠ 0 := (Real.sqrt_pos.mpr hT).ne'
  have hss : Real.sqrt T * Real.sqrt T = T := Real.mul_self_sqrt hT.le
  have hne : vol * Real.sqrt T ≠ 0 := mul_ne_zero hvol hs0
  field_simp
  linear_combination (-(vol ^ 3 * Real.sqrt T)) * hss

lemma d2_decomp (S K T r q vol : ℝ) (hT : 0 < T) (hvol : vol ≠ 0) :
    (d1_d2 S K T r q vol).2.1 = aPar S K T r q vol - hPar T vol := by
  unfold d1_d2 aPar hPar
  simp only
  have hs0 : Real.sqrt T ≠ 0 := (Real.sqrt_pos.mpr hT).ne'
  have hss : Real.sqrt T * Real.sqrt T = T := Real.mul_self_sqrt hT.le
  have hne : vol * Real.sqrt T ≠ 0 := mul_ne_zero hvol hs0
  field_simp
  linear_combination (-(vol ^ 3 * Real.sqrt T)) * hss

lemma two_ah (S K T r q vol : ℝ) (hT : 0 < T) (hvol : vol ≠ 0) :
    2 * aPar S K T r q vol * hPar T vol = Real.log (S / K) + (r - q) * T := by
  unfold aPar hPar
  have hs0 : Real.sqrt T ≠ 0 := (Real.sqrt_pos.mpr hT).ne'
  have hss : Real.sqrt T * Real.sqrt T = T := Real.mul_self_sqrt hT.le
  field_simp

/-- The discounted spot leg equals the discounted strike leg scaled by
exp(2 a h). -/
lemma spot_leg_eq (S K T r q vol : ℝ) (hS : 0 < S) (hK : 0 < K)
    (hT : 0 < T) (hvol : vol ≠ 0) :
    S * Real.exp (-q * T) =
      K * Real.exp (-r * T) * Real.exp (2 * aPar S K T r q vol * hPar T vol) := by
  have hue : Real.exp (-r * T) * Real.exp ((r - q) * T) = Real.exp (-q * T) := by
    rw [← Real.exp_add]
    congr 1
    ring
  rw [two_ah S K T r q vol hT hvol, Real.exp_add, Real.exp_log (div_pos hS hK)]
  rw [← hue]
  field_simp
  ring

/-- Key identity behind the vega formula:
S exp(-qT) pdf(d1) = K exp(-rT) pdf(d2). -/
lemma spot_pdf_identity (S K T r q vol : ℝ) (hS : 0 < S) (hK : 0 < K)
    (hT : 0 < T) (hvol : vol ≠ 0) :
    S * Real.exp (-q * T) * normPdf ((d1_d2 S K T r q vol).1) =
      K * Real.exp (-r * T) * normPdf ((d1_d2 S K T r q vol).2.1) := by
  have h2ah := two_ah S K T r q vol hT hvol
  rw [d1_decomp S K T r q vol hT hvol, d2_decomp S K T r q vol hT hvol]
  set A := aPar S K T r q vol with hA
  set H := hPar T vol with hH
  unfold normPdf
  have hsq : (A + H) ^ 2 - (A - H) ^ 2 = 2 * (Real.log S - Real.log K + (r - q) * T) := by
    rw [← Real.log_div hS.ne' hK.ne', ← h2ah]
    ring
  have lhs_eq : S * Real.exp (-q * T) *
      ((Real.sqrt (2 * Real.pi))⁻¹ * Real.exp (-((A + H) ^ 2) / 2))
      = (Real.sqrt (2 * Real.pi))⁻¹ *
        Real.exp (Real.log S + -q * T + -((A + H) ^ 2) / 2) := by
    rw [Real.exp_add, Real.exp_add, Real.exp_log hS]
    ring
  have rhs_eq : K * Real.exp (-r * T) *
      ((Real.sqrt (2 * Real.pi))⁻¹ * Real.exp (-((A - H) ^ 2) / 2))
      = (Real.sqrt (2 * Real.pi))⁻¹ *
        Real.exp (Real.log K + -r * T + -((A - H) ^ 2) / 2) := by
    rw [Real.exp_add, Real.exp_add, Real.exp_log hK]
    ring
  rw [lhs_eq, rhs_eq]
  congr 1
  rw [Real.exp_eq_exp]
  linarith [hsq]

/-- Put-call parity, exactly, for the two branch formulas. -/
lemma call_sub_put (S K T r q vol : ℝ) :
    callPrice S K T r q vol - putPrice S K T r q vol =
      S * Real.exp (-q * T) - K * Real.exp (-r * T) := by
  unfold callPrice putPrice
  have e1 : normCdf (-(d1_d2 S K T r q vol).1)
      = 1 - normCdf ((d1_d2 S K T r q vol).1) := by
    linarith [normCdf_add_normCdf_neg ((d1_d2 S K T r q vol).1)]
  have e2 : normCdf (-(d1_d2 S K T r q vol).2.1)
      = 1 - normCdf ((d1_d2 S K T r q vol).2.1) := by
    linarith [normCdf_add_normCdf_neg ((d1_d2 S K T r q vol).2.1)]
  rw [e1, e2]
  ring

lemma callPrice_nonneg (S K T r q vol : ℝ) (hS : 0 < S) (hK : 0 < K)
    (hT : 0 < T) (hvol : 0 < vol) :
    0 ≤ callPrice S K T r q vol := by
  have key := normCdf_sub_le (aPar S K T r q vol) (hPar T vol) (hPar_pos hT hvol).le
  have hKe : (0:ℝ) < K * Real.exp (-r * T) := by positivity
  have h2 := mul_le_mul_of_nonneg_left key hKe.le
  unfold callPrice
  rw [d1_decomp S K T r q vol hT hvol.ne', d2_decomp S K T r q vol hT hvol.ne',
    spot_leg_eq S K T r q vol hS hK hT hvol.ne']
  nlinarith [h2]

lemma putPrice_nonneg (S K T r q vol : ℝ) (hS : 0 < S) (hK : 0 < K)
    (hT : 0 < T) (hvol : 0 < vol) :
    0 ≤ putPrice S K T r q vol := by
  have harg1 : -aPar S K T r q vol - hPar T vol
      = -(aPar S K T r q vol + hPar T vol) := by ring
  have harg2 : -aPar S K T r q vol + hPar T vol
      = -(aPar S K T r q vol - hPar T vol) := by ring
  have key := normCdf_sub_le (-aPar S K T r q vol) (hPar T vol) (hPar_pos hT hvol).le
  rw [harg1, harg2] at key
  have hKe : (0:ℝ) < K * Real.exp (-r * T) := by positivity
  have hE1 : (0:ℝ) < Real.exp (2 * aPar S K T r q vol * hPar T vol) := Real.exp_pos _
  have hmul := mul_le_mul_of_nonneg_left key (by positivity :
    (0:ℝ) ≤ K * Real.exp (-r * T) * Real.exp (2 * aPar S K T r q vol * hPar T vol))
  have hcancel : Real.exp (2 * aPar S K T r q vol * hPar T vol)
      * Real.exp (2 * -aPar S K T r q vol * hPar T vol) = 1 := by
    rw [← Real.exp_add]
    rw [show 2 * aPar S K T r q vol * hPar T vol
      + 2 * -aPar S K T r q vol * hPar T vol = 0 from by ring]
    exact Real.exp_zero
  have hfold : K * Real.exp (-r * T) * Real.exp (2 * aPar S K T r q vol * hPar T vol)
      * (Real.exp (2 * -aPar S K T r q vol * hPar T vol)
        * normCdf (-(aPar S K T r q vol - hPar T vol)))
      = K * Real.exp (-r * T) * normCdf (-(aPar S K T r q vol - hPar T vol)) := by
    rw [show K * Real.exp (-r * T) * Real.exp (2 * aPar S K T r q vol * hPar T vol)
      * (Real.exp (2 * -aPar S K T r q vol * hPar T vol)
        * normCdf (-(aPar S K T r q vol - hPar T vol)))
      = K * Real.exp (-r * T) * (Real.exp (2 * aPar S K T r q vol * hPar T vol)
        * Real.exp (2 * -aPar S K T r q vol * hPar T vol))
        * normCdf (-(aPar S K T r q vol - hPar T vol)) from by ring]
    rw [hcancel, mul_one]
  rw [hfold] at hmul
  unfold putPrice
  rw [d1_decomp S K T r q vol hT hvol.ne', d2_decomp S K T r q vol hT hvol.ne',
    spot_leg_eq S K T r q vol hS hK hT hvol.ne']
  nlinarith [hmul]

lemma callPrice_ge_intrinsic (S K T r q vol : ℝ) (hS : 0 < S) (hK : 0 < K)
    (hT : 0 < T) (hvol : 0 < vol) :
    max 0 (S * Real.exp (-q * T) - K * Real.exp (-r * T))
      ≤ callPrice S K T r q vol := by
  refine max_le (callPrice_nonneg S K T r q vol hS hK hT hvol) ?_
  have h1 := call_sub_put S K T r q vol
  have h2 := putPrice_nonneg S K T r q vol hS hK hT hvol
  linarith

lemma putPrice_ge_intrinsic (S K T r q vol : ℝ) (hS : 0 < S) (hK : 0 < K)
    (hT : 0 < T) (hvol : 0 < vol) :
    max 0 (K * Real.exp (-r * T) - S * Real.exp (-q * T))
      ≤ putPrice S K T r q vol := by
  refine max_le (putPrice_nonneg S K T r q vol hS hK hT hvol) ?_
  have h1 := call_sub_put S K T r q vol
  have h2 := callPrice_nonneg S K T r q vol hS hK hT hvol
  linarith

/-- Upper no-arbitrage bound used to build a non-convergent query. -/
lemma callPrice_le (S K T r q vol : ℝ) (hS : 0 ≤ S) (hK : 0 ≤ K) :
    callPrice S K T r q vol ≤ S * Real.exp (-q * T) := by
  unfold callPrice
  have h1 := normCdf_le_one ((d1_d2 S K T r q vol).1)
  have h2 := normCdf_nonneg ((d1_d2 S K T r q vol).2.1)
  have hSd : (0:ℝ) ≤ S * Real.exp (-q * T) := by positivity
  have hKd : (0:ℝ) ≤ K * Real.exp (-r * T) := by positivity
  nlinarith

/-- Derivative of the call branch in the volatility argument: the vega
S exp(-qT) pdf(d1) sqrt(T), positive for valid inputs. -/
lemma hasDerivAt_callPrice (S K T r q sig : ℝ) (hS : 0 < S) (hK : 0 < K)
    (hT : 0 < T) (hsig : 0 < sig) :
    HasDerivAt (fun v => callPrice S K T r q v)
      (S * Real.exp (-q * T) * normPdf ((d1_d2 S K T r q sig).1) * Real.sqrt T)
      sig := by
  have hsT : 0 < Real.sqrt T := Real.sqrt_pos.mpr hT
  have hden : sig * Real.sqrt T ≠ 0 := by positivity
  have hN : HasDerivAt
      (fun v : ℝ => Real.log (S / K) + (r - q + 0.5 * v * v) * T) (sig * T) sig := by
    have h := ((hasDerivAt_pow 2 sig).const_mul (0.5 * T)).add_const
      (Real.log (S / K) + (r - q) * T)
    have hfun2 : (fun x : ℝ => 0.5 * T * x ^ 2 + (Real.log (S / K) + (r - q) * T))
        = fun v : ℝ => Real.log (S / K) + (r - q + 0.5 * v * v) * T := by
      funext v
      ring
    rw [hfun2] at h
    convert h using 1
    push_cast
    ring
  have hD : HasDerivAt (fun v : ℝ => v * Real.sqrt T) (Real.sqrt T) sig := by
    simpa using (hasDerivAt_id sig).mul_const (Real.sqrt T)
  have hquot := hN.div hD hden
  have hd2fun := hquot.sub hD
  have hΦ1 := (hasDerivAt_normCdf _).comp (x := sig) hquot
  have hΦ2 := (hasDerivAt_normCdf _).comp (x := sig) hd2fun
  have hbig := (HasDerivAt.const_mul (S * Real.exp (-q * T)) hΦ1).sub
    (HasDerivAt.const_mul (K * Real.exp (-r * T)) hΦ2)
  simp only [Function.comp] at hbig
  have hid := spot_pdf_identity S K T r q sig hS hK hT hsig.ne'
  have hd1sig : (d1_d2 S K T r q sig).1
      = (Real.log (S / K) + (r - q + 0.5 * sig * sig) * T) / (sig * Real.sqrt T) := rfl
  have hd2sig : (d1_d2 S K T r q sig).2.1
      = (Real.log (S / K) + (r - q + 0.5 * sig * sig) * T) / (sig * Real.sqrt T)
        - sig * Real.sqrt T := rfl
  rw [hd1sig, hd2sig] at hid
  rw [hd1sig]
  convert hbig using 1
  linear_combination (Real.sqrt T
      - (sig * T * (sig * Real.sqrt T)
        - (Real.log (S / K) + (r - q + 0.5 * sig * sig) * T) * Real.sqrt T)
        / (sig * Real.sqrt T) ^ 2) * hid

/-- The put branch has the same derivative in volatility, by parity. -/
lemma hasDerivAt_putPrice (S K T r q sig : ℝ) (hS : 0 < S) (hK : 0 < K)
    (hT : 0 < T) (hsig : 0 < sig) :
    HasDerivAt (fun v => putPrice S K T r q v)
      (S * Real.exp (-q * T) * normPdf ((d1_d2 S K T r q sig).1) * Real.sqrt T)
      sig := by
  have hput : (fun v => putPrice S K T r q v)
      = fun v => callPrice S K T r q v
        - (S * Real.exp (-q * T) - K * Real.exp (-r * T)) := by
    funext v
    have := call_sub_put S K T r q v
    linarith
  rw [hput]
  exact (hasDerivAt_callPrice S K T r q sig hS hK hT hsig).sub_const _

lemma vega_pos (S K T r q sig : ℝ) (hS : 0 < S) (hT : 0 < T) :
    0 < S * Real.exp (-q * T) * normPdf ((d1_d2 S K T r q sig).1) * Real.sqrt T := by
  have h1 := normPdf_pos ((d1_d2 S K T r q sig).1)
  have h2 := Real.sqrt_pos.mpr hT
  positivity

lemma strictMonoOn_callPrice (S K T r q : ℝ) (hS : 0 < S) (hK : 0 < K)
    (hT : 0 < T) :
    StrictMonoOn (fun v => callPrice S K T r q v) (Ioi 0) := by
  refine strictMonoOn_of_deriv_pos (convex_Ioi 0) ?_ ?_
  · intro v hv
    exact ((hasDerivAt_callPrice S K T r q v hS hK hT hv).continuousAt).continuousWithinAt
  · intro x hx
    rw [interior_Ioi] at hx
    rw [(hasDerivAt_callPrice S K T r q x hS hK hT hx).deriv]
    exact vega_pos S K T r q x hS hT

lemma strictMonoOn_putPrice (S K T r q : ℝ) (hS : 0 < S) (hK : 0 < K)
    (hT : 0 < T) :
    StrictMonoOn (fun v => putPrice S K T r q v) (Ioi 0) := by
  refine strictMonoOn_of_deriv_pos (convex_Ioi 0) ?_ ?_
  · intro v hv
    exact ((hasDerivAt_putPrice S K T r q v hS hK hT hv).continuousAt).continuousWithinAt
  · intro x hx
    rw [interior_Ioi] at hx
    rw [(hasDerivAt_putPrice S K T r q x hS hK hT hx).deriv]
    exact vega_pos S K T r q x hS hT

lemma strictMonoOn_bs_price (S K T r q : ℝ) (opt_type : List Char)
    (hS : 0 < S) (hK : 0 < K) (hT : 0 < T) :
    StrictMonoOn (fun v => bs_price S K T r q v opt_type) (Ioi 0) := by
  by_cases hc : isCallType opt_type
  · have hfn : (fun v => bs_price S K T r q v opt_type)
        = fun v => callPrice S K T r q v := by
      funext v
      rw [bs_price_eq, if_pos hc]
    rw [hfn]
    exact strictMonoOn_callPrice S K T r q hS hK hT
  · have hfn : (fun v => bs_price S K T r q v opt_type)
        = fun v => putPrice S K T r q v := by
      funext v
      rw [bs_price_eq, if_neg hc]
    rw [hfn]
    exact strictMonoOn_putPrice S K T r q hS hK hT

lemma bs_price_ge_intrinsic (S K T r q vol : ℝ) (opt_type : List Char)
    (hS : 0 < S) (hK : 0 < K) (hT : 0 < T) (hvol : 0 < vol) :
    (if firstCharIsC opt_type then max 0 (S * Real.exp (-q * T) - K * Real.exp (-r * T))
      else max 0 (K * Real.exp (-r * T) - S * Real.exp (-q * T)))
      ≤ bs_price S K T r q vol opt_type := by
  rw [bs_price_eq, firstCharIsC_eq_isCallType]
  by_cases hc : isCallType opt_type
  · rw [if_pos hc, if_pos hc]
    exact callPrice_ge_intrinsic S K T r q vol hS hK hT hvol
  · rw [if_neg hc, if_neg hc]
    exact putPrice_ge_intrinsic S K T r q vol hS hK hT hvol


/-- The d1 of the spec (section 4.1): written from the spec text, to be
compared with the d1 computed by the source. -/
noncomputable def spec_d1 (S K T r q sigma : ℝ) : ℝ :=
  (Real.log (S / K) + (r - q + 0.5 * sigma ^ 2) * T) / (sigma * Real.sqrt T)

/-- The d2 of the spec (section 4.1): d2 = d1 - sigma sqrt T. -/
noncomputable def spec_d2 (S K T r q sigma : ℝ) : ℝ :=
  spec_d1 S K T r q sigma - sigma * Real.sqrt T

/-- The call price formula as the spec states it:
S exp(-qT) Phi(d1) - K exp(-rT) Phi(d2). -/
noncomputable def spec_callPrice (S K T r q sigma : ℝ) : ℝ :=
  S * Real.exp (-q * T) * normCdf (spec_d1 S K T r q sigma) -
    K * Real.exp (-r * T) * normCdf (spec_d2 S K T r q sigma)

/-- The put price formula as the spec states it:
K exp(-rT) Phi(-d2) - S exp(-qT) Phi(-d1). -/
noncomputable def spec_putPrice (S K T r q sigma : ℝ) : ℝ :=
  K * Real.exp (-r * T) * normCdf (-spec_d2 S K T r q sigma) -
    S * Real.exp (-q * T) * normCdf (-spec_d1 S K T r q sigma)

/-- Only the characters c and C lower to c. -/
lemma toLower_eq_c_iff (c : Char) : c.toLower = 'c' ↔ (c = 'c' ∨ c = 'C') := by
  constructor
  · intro hlow
    simp only [Char.toLower] at hlow
    by_cases hcond : c.toNat ≥ 65 ∧ c.toNat ≤ 90
    · rw [if_pos hcond] at hlow
      obtain ⟨h1, h2⟩ := hcond
      obtain ⟨n, hn⟩ : ∃ n, Char.toNat c = n := ⟨Char.toNat c, rfl⟩
      have hc : c = Char.ofNat n := by rw [← hn, Char.ofNat_toNat]
      rw [hn] at h1 h2 hlow
      interval_cases n <;>
        first
          | exact absurd hlow (by decide)
          | (rw [hc]; decide)
    · rw [if_neg hcond] at hlow
      exact Or.inl hlow
  · rintro (rfl | rfl) <;> decide

lemma isCallType_cons (c : Char) (rest : List Char) :
    isCallType (c :: rest) = (c.toLower == 'c') := by
  rw [← firstCharIsC_eq_isCallType]
  rfl

/-- The discounted intrinsic value computed by implied_vol
(src/BlackScholes.py line 81), as a standalone function of the inputs. -/
noncomputable def intrinsicOf (S K T r q : ℝ) (opt_type : List Char) : ℝ :=
  if firstCharIsC opt_type then max 0 (S * Real.exp (-q * T) - K * Real.exp (-r * T))
  else max 0 (K * Real.exp (-r * T) - S * Real.exp (-q * T))

/-- A market price strictly below the intrinsic bound short-circuits
implied_vol to the failure value, whatever the solver is. -/
lemma implied_vol_below (solver : (ℝ → ℝ) → ℝ → ℝ → Option ℝ)
    (price_mkt S K T r q : ℝ) (opt_type : List Char)
    (hlt : price_mkt < intrinsicOf S K T r q opt_type) :
    implied_vol solver price_mkt S K T r q opt_type = none := by
  unfold intrinsicOf at hlt
  unfold implied_vol
  simp only
  rw [if_pos hlt]

/-- A market price at or above the intrinsic bound hands the objective to
the solver on the bracket from 1e-6 to 5. -/
lemma implied_vol_not_below (solver : (ℝ → ℝ) → ℝ → ℝ → Option ℝ)
    (price_mkt S K T r q : ℝ) (opt_type : List Char)
    (hge : ¬(price_mkt < intrinsicOf S K T r q opt_type)) :
    implied_vol solver price_mkt S K T r q opt_type =
      solver (fun sig => bs_price S K T r q sig opt_type - price_mkt) 1e-6 5 := by
  unfold intrinsicOf at hge
  unfold implied_vol
  simp only
  rw [if_neg hge]

/-- Any numeric result of the solver stage is a root of the objective
inside the closed bracket. -/
lemma implied_vol_brentq_some (price_mkt S K T r q : ℝ) (opt_type : List Char)
    (v : ℝ) (hv : implied_vol brentq price_mkt S K T r q opt_type = some v) :
    v ∈ Icc (1e-6 : ℝ) 5 ∧ bs_price S K T r q v opt_type = price_mkt := by
  by_cases hlt : price_mkt < intrinsicOf S K T r q opt_type
  · rw [implied_vol_below brentq price_mkt S K T r q opt_type hlt] at hv
    cases hv
  · rw [implied_vol_not_below brentq price_mkt S K T r q opt_type hlt] at hv
    obtain ⟨hmem, hzero⟩ := brentq_eq_some hv
    exact ⟨hmem, by linarith [hzero]⟩

lemma bs_price_callType (S K T r q vol : ℝ) :
    bs_price S K T r q vol callType = callPrice S K T r q vol := by
  rw [bs_price_eq, isCallType_callType]
  simp

lemma bs_price_putType (S K T r q vol : ℝ) :
    bs_price S K T r q vol putType = putPrice S K T r q vol := by
  rw [bs_price_eq, isCallType_putType]
  simp

lemma greeks_delta_c (S K T r q vol : ℝ) :
    (greeks S K T r q vol).delta_c
      = Real.exp (-q * T) * normCdf ((d1_d2 S K T r q vol).1) := rfl

lemma greeks_delta_p (S K T r q vol : ℝ) :
    (greeks S K T r q vol).delta_p
      = Real.exp (-q * T) * (normCdf ((d1_d2 S K T r q vol).1) - 1.0) := rfl

/-- Feeding a model price back into the solver recovers the generating
volatility exactly, for any volatility inside the closed search bracket. -/
lemma roundtrip_core (S K T r q sig0 : ℝ) (opt_type : List Char)
    (hS : 0 < S) (hK : 0 < K) (hT : 0 < T)
    (hmem : sig0 ∈ Icc (1e-6 : ℝ) 5) :
    implied_vol brentq (bs_price S K T r q sig0 opt_type) S K T r q opt_type
      = some sig0 := by
  have hsig0 : 0 < sig0 := lt_of_lt_of_le (by norm_num) hmem.1
  have hnb : ¬(bs_price S K T r q sig0 opt_type < intrinsicOf S K T r q opt_type) := by
    refine not_lt.mpr ?_
    unfold intrinsicOf
    exact bs_price_ge_intrinsic S K T r q sig0 opt_type hS hK hT hsig0
  rw [implied_vol_not_below brentq _ S K T r q opt_type hnb]
  obtain ⟨v, hv, hvmem, hvzero⟩ := brentq_of_root
    (f := fun sig => bs_price S K T r q sig opt_type - bs_price S K T r q sig0 opt_type)
    (a := 1e-6) (b := 5) ⟨sig0, hmem, by simp⟩
  rw [hv]
  congr 1
  have hvpos : v ∈ Ioi (0:ℝ) := mem_Ioi.mpr (lt_of_lt_of_le (by norm_num) hvmem.1)
  have hspos : sig0 ∈ Ioi (0:ℝ) := mem_Ioi.mpr hsig0
  exact (strictMonoOn_bs_price S K T r q opt_type hS hK hT).injOn hvpos hspos
    (show bs_price S K T r q v opt_type = bs_price S K T r q sig0 opt_type from
      by linarith [hvzero])

/-- The below-intrinsic query of the counterexamples: a call on S = 2,
K = 1, T = 1, r = q = 0 priced at 1/2, half its intrinsic value 1. -/
lemma cex_below : (1/2 : ℝ) < intrinsicOf 2 1 1 0 0 callType := by
  unfold intrinsicOf
  rw [show firstCharIsC callType = true from by decide]
  simp only [if_true]
  norm_num [Real.exp_zero, lt_max_iff]

/-- The non-convergent query of the counterexamples: a call on S = 1,
K = 1, T = 1, r = q = 0 priced at 2, above every model price. -/
lemma cex_notbelow : ¬((2 : ℝ) < intrinsicOf 1 1 1 0 0 callType) := by
  unfold intrinsicOf
  rw [show firstCharIsC callType = true from by decide]
  simp only [if_true]
  norm_num [Real.exp_zero, lt_max_iff]

lemma cex_noroot : ∀ x ∈ Icc (1e-6 : ℝ) 5, bs_price 1 1 1 0 0 x callType ≠ 2 := by
  intro x _ heq
  rw [bs_price_callType] at heq
  have hle := callPrice_le 1 1 1 0 0 x (by norm_num) (by norm_num)
  rw [show (-(0:ℝ)) * 1 = 0 from by norm_num, Real.exp_zero] at hle
  linarith [heq.ge.trans hle]


lemma d1_eq_spec (S K T r q sigma : ℝ) :
    (d1_d2 S K T r q sigma).1 = spec_d1 S K T r q sigma := by
  unfold d1_d2 spec_d1
  simp only
  rw [show (0.5 : ℝ) * sigma ^ 2 = 0.5 * sigma * sigma from by ring]

lemma d2_eq_spec (S K T r q sigma : ℝ) :
    (d1_d2 S K T r q sigma).2.1 = spec_d2 S K T r q sigma := by
  unfold spec_d2
  rw [← d1_eq_spec]
  rfl

/-- C1: for valid inputs the price operation returns the closed-form
Black-Scholes-Merton value, with d1 and d2 as the spec writes them:
the source call and put branches coincide with the spec formulas. -/
theorem claim_C1 (S K T r q sigma : ℝ) (hS : 0 < S) (hK : 0 < K)
    (hT : 0 < T) (hsig : 0 < sigma) :
    bs_price S K T r q sigma callType = spec_callPrice S K T r q sigma ∧
    bs_price S K T r q sigma putType = spec_putPrice S K T r q sigma := by
  constructor
  · rw [bs_price_callType]
    unfold callPrice spec_callPrice
    rw [d1_eq_spec, d2_eq_spec]
  · rw [bs_price_putType]
    unfold putPrice spec_putPrice
    rw [d1_eq_spec, d2_eq_spec]

/-- Witness for C1 at S = 100, K = 95, T = 2, r = 3/100, q = 1/100,
sigma = 1/5. -/
theorem claim_C1_witness :
    (0:ℝ) < 100 ∧ (0:ℝ) < 95 ∧ (0:ℝ) < 2 ∧ (0:ℝ) < 1/5 ∧
      (bs_price 100 95 2 (3/100) (1/100) (1/5) callType
          = spec_callPrice 100 95 2 (3/100) (1/100) (1/5) ∧
        bs_price 100 95 2 (3/100) (1/100) (1/5) putType
          = spec_putPrice 100 95 2 (3/100) (1/100) (1/5)) :=
  ⟨by norm_num, by norm_num, by norm_num, by norm_num,
    claim_C1 100 95 2 (3/100) (1/100) (1/5)
      (by norm_num) (by norm_num) (by norm_num) (by norm_num)⟩

/-- C2: put-call parity holds exactly in the real-arithmetic model, hence
within any floating-point tolerance. -/
theorem claim_C2 (S K T r q sigma : ℝ) (hS : 0 < S) (hK : 0 < K)
    (hT : 0 < T) (hsig : 0 < sigma) :
    bs_price S K T r q sigma callType - bs_price S K T r q sigma putType
      = S * Real.exp (-q * T) - K * Real.exp (-r * T) := by
  rw [bs_price_callType, bs_price_putType]
  exact call_sub_put S K T r q sigma

/-- Witness for C2 at S = 100, K = 90, T = 1, r = 1/20, q = 1/50,
sigma = 3/10. -/
theorem claim_C2_witness :
    (0:ℝ) < 100 ∧ (0:ℝ) < 90 ∧ (0:ℝ) < 1 ∧ (0:ℝ) < 3/10 ∧
      bs_price 100 90 1 (1/20) (1/50) (3/10) callType
          - bs_price 100 90 1 (1/20) (1/50) (3/10) putType
        = 100 * Real.exp (-(1/50) * 1) - 90 * Real.exp (-(1/20) * 1) :=
  ⟨by norm_num, by norm_num, by norm_num, by norm_num,
    claim_C2 100 90 1 (1/20) (1/50) (3/10)
      (by norm_num) (by norm_num) (by norm_num) (by norm_num)⟩

/-- C3: a market price strictly below the discounted intrinsic value makes
implied_vol return the failure value immediately, for every root-finding
routine, so no numeric volatility is produced and the root search result
is never consulted. -/
theorem claim_C3 (solver : (ℝ → ℝ) → ℝ → ℝ → Option ℝ)
    (price_mkt S K T r q : ℝ) (opt_type : List Char)
    (hlt : price_mkt < intrinsicOf S K T r q opt_type) :
    implied_vol solver price_mkt S K T r q opt_type = none :=
  implied_vol_below solver price_mkt S K T r q opt_type hlt

/-- Witness for C3: a deep in-the-money call (S = 2, K = 1, T = 1,
r = q = 0, intrinsic value 1) priced at 1/2. -/
theorem claim_C3_witness :
    (1/2 : ℝ) < intrinsicOf 2 1 1 0 0 callType ∧
      implied_vol brentq (1/2) 2 1 1 0 0 callType = none :=
  ⟨cex_below, claim_C3 brentq (1/2) 2 1 1 0 0 callType cex_below⟩

/-- C4 as stated is false: the counterexample feeds one below-intrinsic
query and one non-convergent query to the solver and both return the very
same failure value (the NaN of the source), so the two outcomes are not
distinguishable from each other. -/
theorem claim_C4_counterexample :
    implied_vol brentq (1/2) 2 1 1 0 0 callType
        = implied_vol brentq 2 1 1 1 0 0 callType ∧
      implied_vol brentq (1/2) 2 1 1 0 0 callType = none ∧
      implied_vol brentq 2 1 1 1 0 0 callType = none := by
  have h1 : implied_vol brentq (1/2) 2 1 1 0 0 callType = none :=
    implied_vol_below brentq (1/2) 2 1 1 0 0 callType cex_below
  have h2 : implied_vol brentq 2 1 1 1 0 0 callType = none := by
    rw [implied_vol_not_below brentq 2 1 1 1 0 0 callType cex_notbelow]
    refine brentq_of_no_root fun x hx heq => ?_
    exact cex_noroot x hx (by linarith [heq])
  exact ⟨h1.trans h2.symm, h1, h2⟩

/-- C4 amended: the solver reports the below-intrinsic failure and the
non-convergence failure as one and the same non-numeric value (NaN in the
source, none here); that failure value is distinguishable from every
successful numeric result, but the two failure causes are not
distinguishable from each other. -/
theorem claim_C4 (p1 S1 K1 T1 r1 q1 : ℝ) (ot1 : List Char)
    (p2 S2 K2 T2 r2 q2 : ℝ) (ot2 : List Char)
    (h1 : p1 < intrinsicOf S1 K1 T1 r1 q1 ot1)
    (h2 : ¬(p2 < intrinsicOf S2 K2 T2 r2 q2 ot2))
    (h3 : ∀ x ∈ Icc (1e-6 : ℝ) 5, bs_price S2 K2 T2 r2 q2 x ot2 ≠ p2) :
    implied_vol brentq p1 S1 K1 T1 r1 q1 ot1
        = implied_vol brentq p2 S2 K2 T2 r2 q2 ot2 ∧
      (∀ v : ℝ, implied_vol brentq p1 S1 K1 T1 r1 q1 ot1 ≠ some v) := by
  have e1 : implied_vol brentq p1 S1 K1 T1 r1 q1 ot1 = none :=
    implied_vol_below brentq p1 S1 K1 T1 r1 q1 ot1 h1
  have e2 : implied_vol brentq p2 S2 K2 T2 r2 q2 ot2 = none := by
    rw [implied_vol_not_below brentq p2 S2 K2 T2 r2 q2 ot2 h2]
    refine brentq_of_no_root fun x hx heq => ?_
    exact h3 x hx (by linarith [heq])
  refine ⟨e1.trans e2.symm, fun v h => ?_⟩
  rw [e1] at h
  cases h

/-- Witness for the amended C4 at the two concrete queries of the
counterexample. -/
theorem claim_C4_witness :
    ((1/2 : ℝ) < intrinsicOf 2 1 1 0 0 callType) ∧
      (¬((2:ℝ) < intrinsicOf 1 1 1 0 0 callType)) ∧
      (∀ x ∈ Icc (1e-6 : ℝ) 5, bs_price 1 1 1 0 0 x callType ≠ 2) ∧
      (implied_vol brentq (1/2) 2 1 1 0 0 callType
          = implied_vol brentq 2 1 1 1 0 0 callType ∧
        ∀ v : ℝ, implied_vol brentq (1/2) 2 1 1 0 0 callType ≠ some v) :=
  ⟨cex_below, cex_notbelow, cex_noroot,
    claim_C4 (1/2) 2 1 1 0 0 callType 2 1 1 1 0 0 callType
      cex_below cex_notbelow cex_noroot⟩

/-- C5 as stated (open bracket) is false: pricing a call exactly at the
bracket ceiling sigma = 5 and inverting returns the numeric result 5,
which is not inside the open interval (1e-6, 5). -/
theorem claim_C5_counterexample :
    implied_vol brentq (bs_price 1 1 1 0 0 5 callType) 1 1 1 0 0 callType
        = some 5 ∧
      (5:ℝ) ∉ Ioo (1e-6 : ℝ) 5 := by
  constructor
  · exact roundtrip_core 1 1 1 0 0 5 callType (by norm_num) (by norm_num)
      (by norm_num) ⟨by norm_num, by norm_num⟩
  · intro h
    exact absurd h.2 (lt_irrefl 5)

/-- C5 amended: every numeric result of the solver lies in the closed
bracket [1e-6, 5]; in particular it is never 0, and a failed search
returns the explicit failure value rather than a number. -/
theorem claim_C5 (price_mkt S K T r q : ℝ) (opt_type : List Char) (v : ℝ)
    (hv : implied_vol brentq price_mkt S K T r q opt_type = some v) :
    v ∈ Icc (1e-6 : ℝ) 5 ∧ v ≠ 0 := by
  obtain ⟨hmem, -⟩ :=
    implied_vol_brentq_some price_mkt S K T r q opt_type v hv
  exact ⟨hmem, (lt_of_lt_of_le (by norm_num) hmem.1).ne'⟩

/-- Witness for the amended C5: inverting the model price generated at
sigma = 1 returns the numeric result 1, inside the closed bracket. -/
theorem claim_C5_witness :
    implied_vol brentq (bs_price 1 1 1 0 0 1 callType) 1 1 1 0 0 callType
        = some 1 ∧
      ((1:ℝ) ∈ Icc (1e-6 : ℝ) 5 ∧ (1:ℝ) ≠ 0) := by
  have h := roundtrip_core 1 1 1 0 0 1 callType (by norm_num) (by norm_num)
    (by norm_num) ⟨by norm_num, by norm_num⟩
  exact ⟨h, claim_C5 (bs_price 1 1 1 0 0 1 callType) 1 1 1 0 0 callType 1 h⟩

/-- C6: the greeks tuple carries one gamma and one vega shared by the call
and the put, and the reported deltas satisfy
delta(call) - delta(put) = exp(-qT). -/
theorem claim_C6 (S K T r q vol : ℝ) (hS : 0 < S) (hK : 0 < K)
    (hT : 0 < T) (hvol : 0 < vol) :
    gammaOf S K T r q vol callType = gammaOf S K T r q vol putType ∧
    vegaOf S K T r q vol callType = vegaOf S K T r q vol putType ∧
    deltaOf S K T r q vol callType - deltaOf S K T r q vol putType
      = Real.exp (-q * T) := by
  refine ⟨rfl, rfl, ?_⟩
  unfold deltaOf
  rw [isCallType_callType, isCallType_putType, if_pos rfl,
    if_neg (by decide : ¬(false = true))]
  rw [greeks_delta_c, greeks_delta_p]
  ring

/-- Witness for C6 at S = 50, K = 55, T = 1/2, r = 1/100, q = 1/25,
sigma = 2/5. -/
theorem claim_C6_witness :
    (0:ℝ) < 50 ∧ (0:ℝ) < 55 ∧ (0:ℝ) < 1/2 ∧ (0:ℝ) < 2/5 ∧
      (gammaOf 50 55 (1/2) (1/100) (1/25) (2/5) callType
          = gammaOf 50 55 (1/2) (1/100) (1/25) (2/5) putType ∧
        vegaOf 50 55 (1/2) (1/100) (1/25) (2/5) callType
          = vegaOf 50 55 (1/2) (1/100) (1/25) (2/5) putType ∧
        deltaOf 50 55 (1/2) (1/100) (1/25) (2/5) callType
            - deltaOf 50 55 (1/2) (1/100) (1/25) (2/5) putType
          = Real.exp (-(1/25) * (1/2))) :=
  ⟨by norm_num, by norm_num, by norm_num, by norm_num,
    claim_C6 50 55 (1/2) (1/100) (1/25) (2/5)
      (by norm_num) (by norm_num) (by norm_num) (by norm_num)⟩

/-- C7: for fixed valid parameters and any option type, the price is
strictly increasing in volatility on the interval (0, 5]. -/
theorem claim_C7 (S K T r q : ℝ) (opt_type : List Char)
    (hS : 0 < S) (hK : 0 < K) (hT : 0 < T) :
    StrictMonoOn (fun sig => bs_price S K T r q sig opt_type) (Ioc (0:ℝ) 5) :=
  (strictMonoOn_bs_price S K T r q opt_type hS hK hT).mono Ioc_subset_Ioi_self

/-- Witness for C7: the at-the-money call price strictly increases from
sigma = 1/5 to sigma = 3/10. -/
theorem claim_C7_witness :
    bs_price 1 1 1 0 0 (1/5) callType < bs_price 1 1 1 0 0 (3/10) callType :=
  claim_C7 1 1 1 0 0 callType (by norm_num) (by norm_num) (by norm_num)
    (Set.mem_Ioc.mpr ⟨by norm_num, by norm_num⟩)
    (Set.mem_Ioc.mpr ⟨by norm_num, by norm_num⟩) (by norm_num)

/-- C8: feeding a model price back into the solver recovers the generating
volatility (here exactly, in real arithmetic) for sigma0 in [0.01, 3];
the solver never fails on such inputs. -/
theorem claim_C8 (S K T r q sig0 : ℝ) (opt_type : List Char)
    (hS : 0 < S) (hK : 0 < K) (hT : 0 < T)
    (hmem : sig0 ∈ Icc (0.01 : ℝ) 3) :
    ∃ v : ℝ, implied_vol brentq (bs_price S K T r q sig0 opt_type) S K T r q
        opt_type = some v ∧ |v - sig0| < 1e-6 := by
  refine ⟨sig0, roundtrip_core S K T r q sig0 opt_type hS hK hT
    ⟨?_, ?_⟩, ?_⟩
  · have := hmem.1
    have h001 : (1e-6 : ℝ) ≤ 0.01 := by norm_num
    linarith
  · have := hmem.2
    linarith
  · rw [sub_self, abs_zero]
    norm_num

/-- Witness for C8 at S = K = 1, T = 1, r = q = 0, sigma0 = 1. -/
theorem claim_C8_witness :
    (0:ℝ) < 1 ∧ (1:ℝ) ∈ Icc (0.01 : ℝ) 3 ∧
      (∃ v : ℝ, implied_vol brentq (bs_price 1 1 1 0 0 1 callType) 1 1 1 0 0
          callType = some v ∧ |v - 1| < 1e-6) :=
  ⟨by norm_num, Set.mem_Icc.mpr ⟨by norm_num, by norm_num⟩,
    claim_C8 1 1 1 0 0 1 callType (by norm_num) (by norm_num) (by norm_num)
      (Set.mem_Icc.mpr ⟨by norm_num, by norm_num⟩)⟩

/-- C9: a non-positive spot, strike, time in days or volatility is rejected
with the error message before the pricing engine is invoked: the result is
the error outcome for every engine, never a numeric tuple. -/
theorem claim_C9 {G : Type} (engine : ℝ → ℝ → ℝ → ℝ → ℝ → ℝ → G)
    (S K T_days r vol q : ℝ)
    (hbad : S ≤ 0 ∨ K ≤ 0 ∨ T_days ≤ 0 ∨ vol ≤ 0) :
    runPricing engine S K T_days r vol q
        = Except.error "Inputs must be positive; T_days and sigma > 0." ∧
      ∀ g : G, runPricing engine S K T_days r vol q ≠ Except.ok g := by
  unfold runPricing
  rw [if_pos hbad]
  exact ⟨rfl, fun g h => Except.noConfusion h⟩

/-- Witness for C9: a negative spot fed to the real greeks engine. -/
theorem claim_C9_witness :
    ((-1 : ℝ) ≤ 0 ∨ (1:ℝ) ≤ 0 ∨ (1:ℝ) ≤ 0 ∨ (1:ℝ) ≤ 0) ∧
      (runPricing greeks (-1) 1 1 (1/20) 1 0
          = Except.error "Inputs must be positive; T_days and sigma > 0." ∧
        ∀ g : GreeksOut, runPricing greeks (-1) 1 1 (1/20) 1 0 ≠ Except.ok g) :=
  ⟨Or.inl (by norm_num),
    claim_C9 greeks (-1) 1 1 (1/20) 1 0 (Or.inl (by norm_num))⟩

/-- C10: the option type is an arbitrary string; every non-empty string
whose first character is c or C is priced as a call and every other
non-empty string is priced as a put, the pricing function and the solver
intrinsic check agreeing on the same test; both are total, so no error is
raised. -/
theorem claim_C10 (c : Char) (rest : List Char) (S K T r q vol : ℝ) :
    (isCallType (c :: rest) = true ↔ (c = 'c' ∨ c = 'C')) ∧
    firstCharIsC (c :: rest) = isCallType (c :: rest) ∧
    bs_price S K T r q vol (c :: rest) =
      (if c = 'c' ∨ c = 'C' then callPrice S K T r q vol
        else putPrice S K T r q vol) := by
  have hiff : isCallType (c :: rest) = true ↔ (c = 'c' ∨ c = 'C') := by
    rw [isCallType_cons, beq_iff_eq]
    exact toLower_eq_c_iff c
  refine ⟨hiff, firstCharIsC_eq_isCallType (c :: rest), ?_⟩
  rw [bs_price_eq]
  by_cases hc : c = 'c' ∨ c = 'C'
  · rw [if_pos (hiff.mpr hc), if_pos hc]
  · rw [if_neg fun h => hc (hiff.mp h), if_neg hc]

end BS
